import Mathlib

/-!
Verification of the linear-referencing core of Geotrek: paths, topologies and
path aggregations, the `reorder_topologies` and `remove_duplicate_paths`
management commands, and the zoning `ZoningPropertiesMixin`.

The management commands and the SQL helpers they rely on
(`ST_SmartLineSubstring`, the topology-geometry trigger) are not part of the
source excerpt — only their test suite `geotrek/core/tests/test_commands.py`
is — so they are modelled from the specification, constrained by the
behaviour that the tests pin down.  The zoning mixin is embedded directly
from `geotrek/zoning/mixins.py`.
-/

namespace Geotrek

attribute [local semireducible] Rat.add Rat.mul Rat.sub Rat.inv

/-- A planar point with rational coordinates. -/
structure Pt where
  x : ℚ
  y : ℚ
deriving DecidableEq, Repr

/-- Affine interpolation between two points: `lerp p q 0 = p`, `lerp p q 1 = q`. -/
def lerp (p q : Pt) (t : ℚ) : Pt :=
  ⟨p.x + t * (q.x - p.x), p.y + t * (q.y - p.y)⟩

/-- A `LineString` geometry: the list of its vertices. -/
abbrev Polyline := List Pt

/-- Modelled from the spec: the geometries that occur in the linear-referencing
core — single points (point topologies, zero-length aggregations), line strings
and multi-part line strings (degenerate topologies). -/
inductive Geom where
  | point (p : Pt)
  | line (l : Polyline)
  | multi (ls : List Polyline)
deriving DecidableEq, Repr

/-- Point reached after walking `u` segments (affinely inside each segment)
from `p` along the vertices `rest`. -/
def pointAtAux : Pt → List Pt → ℚ → Pt
  | p, [], _ => p
  | p, q :: rest, u => if u ≤ 1 then lerp p q u else pointAtAux q rest (u - 1)

/-- Modelled from the spec: the point at fractional position `t ∈ [0,1]` along
a polyline ("start/end fractional positions (0..1 …) along it").  Each of the
segments spans an equal parameter share; on a single-segment path this is
exactly the affine parametrization used by the repository's tests. -/
def pointAt (l : Polyline) (t : ℚ) : Pt :=
  match l with
  | [] => ⟨0, 0⟩
  | p :: rest => pointAtAux p rest (t * rest.length)

/-- Original vertices of `l` lying strictly between fractional positions
`a` and `b`. -/
def interiorVerts (l : Polyline) (a b : ℚ) : List Pt :=
  (List.range l.length).filterMap fun (i : ℕ) =>
    if a * ((l.length - 1 : ℕ) : ℚ) < (i : ℚ) ∧ (i : ℚ) < b * ((l.length - 1 : ℕ) : ℚ) then
      l.get? i
    else none

/-- Collapse consecutive duplicate vertices. -/
def dedupConsec : Polyline → Polyline
  | [] => []
  | [p] => [p]
  | p :: q :: rest => if p = q then dedupConsec (q :: rest) else p :: dedupConsec (q :: rest)

/-- Modelled from the spec: the sub-polyline between fractional positions
`a ≤ b` of a polyline (the forward case of `ST_SmartLineSubstring`). -/
def subLine (l : Polyline) (a b : ℚ) : Polyline :=
  dedupConsec (pointAt l a :: (interiorVerts l a b ++ [pointAt l b]))

/-- Modelled from the spec: `ST_SmartLineSubstring` — the fractional substring
of a path geometry; equal positions give a point, and reversed positions
(`a > b`) give the reversed substring, representing traversal against the
path's direction. -/
def smartLineSubstring (l : Polyline) (a b : ℚ) : Geom :=
  if a = b then Geom.point (pointAt l a)
  else if a < b then Geom.line (subLine l a b)
  else Geom.line (subLine l b a).reverse

/-- A path: a directed polyline segment with a visibility flag
(`geotrek.core.models.Path`). -/
structure Path where
  id : ℕ
  geom : Polyline
  visible : Bool
deriving DecidableEq, Repr

/-- A path aggregation: join record expressing a topology's position along a
specific path via start/end fractions and order
(`geotrek.core.models.PathAggregation`). -/
structure PathAggregation where
  path : ℕ
  start_position : ℚ
  end_position : ℚ
  order : ℕ
deriving DecidableEq, Repr

/-- A topology: a logical trail/feature composed of an ordered sequence of
path aggregations, with its stored geometry and its kind (e.g. `"TREK"`). -/
structure Topology where
  id : ℕ
  kind : String
  geom : Geom
  aggregations : List PathAggregation
deriving DecidableEq, Repr

/-- The database state the commands operate on. -/
structure DB where
  paths : List Path
  topos : List Topology
deriving DecidableEq, Repr

/-- Look a path up by id. -/
def DB.findPath (db : DB) (pid : ℕ) : Option Path :=
  db.paths.find? fun p => p.id = pid

/-- The geometry of the path with the given id (empty when absent). -/
def DB.pathGeom (db : DB) (pid : ℕ) : Polyline :=
  (db.findPath pid).elim [] Path.geom

/-- The geometry contributed by one aggregation: the fractional substring of
its referenced path's geometry. -/
def aggGeom (db : DB) (a : PathAggregation) : Geom :=
  smartLineSubstring (db.pathGeom a.path) a.start_position a.end_position

/-- The aggregation geometries of a topology, in aggregation order (the
stored list is kept sorted by `order`, then insertion). -/
def topoPieces (db : DB) (t : Topology) : List Geom :=
  t.aggregations.map (aggGeom db)

/-- The line parts of a list of geometries. -/
def linesOf (gs : List Geom) : List Polyline :=
  gs.filterMap fun g =>
    match g with
    | .line l => some l
    | _ => none

/-- The first point part of a list of geometries, if any. -/
def firstPoint (gs : List Geom) : Option Pt :=
  gs.findSome? fun g =>
    match g with
    | .point p => some p
    | _ => none

/-- Append one polyline to an accumulated polyline, requiring it to start
where the accumulated one ends. -/
def chain2 (acc l : Polyline) : Option Polyline :=
  match acc.getLast?, l with
  | some e, h :: rest => if e = h then some (acc ++ rest) else none
  | _, _ => none

/-- Chain a list of polylines end to start into a single polyline, if
possible. -/
def chainLines : List Polyline → Option Polyline
  | [] => none
  | l :: ls => ls.foldlM chain2 l

/-- Modelled from the spec: how a topology's geometry is assembled from its
aggregation geometries ("the concatenation of aggregation geometries (in
order) must reconstruct the topology's geometry").  Point parts locate point
topologies; line parts must chain end to start; when they do not, the result
is a degenerate multi-part geometry, exactly the failure shape the
`reorder_topologies` tests exhibit. -/
def smartMakeLine (gs : List Geom) : Geom :=
  match linesOf gs with
  | [] =>
    match firstPoint gs with
    | some p => .point p
    | none => .multi []
  | l :: ls =>
    match chainLines (l :: ls) with
    | some m => .line m
    | none => .multi (l :: ls)

/-- The topology geometry recomputed from its aggregations. -/
def topoGeomComputed (db : DB) (t : Topology) : Geom :=
  smartMakeLine (topoPieces db t)

/-- The order values of a topology's aggregations, in stored order. -/
def ordersOf (t : Topology) : List ℕ :=
  t.aggregations.map PathAggregation.order

/-- Well-formedness of one topology: the stored geometry is the one its
aggregations reconstruct, the stored aggregation list is sorted by `order`
(non-decreasing), and every aggregation has fractional positions in `[0,1]`
on an existing path. -/
def Topology.wf (db : DB) (t : Topology) : Prop :=
  t.geom = topoGeomComputed db t ∧
  List.Sorted (· ≤ ·) (ordersOf t) ∧
  ∀ a ∈ t.aggregations,
    0 ≤ a.start_position ∧ a.start_position ≤ 1 ∧
    0 ≤ a.end_position ∧ a.end_position ≤ 1 ∧
    (db.findPath a.path).isSome

instance (db : DB) (t : Topology) : Decidable (t.wf db) := by
  unfold Topology.wf; exact inferInstance

/-- Well-formedness of the database: distinct path ids and well-formed
topologies. -/
def DB.wf (db : DB) : Prop :=
  (db.paths.map Path.id).Nodup ∧ ∀ t ∈ db.topos, t.wf db

instance (db : DB) : Decidable db.wf := by
  unfold DB.wf; exact inferInstance

/-! ## The `reorder_topologies` management command (spec-modelled) -/

/-- Is a geometry a multi-part (degenerate) geometry? -/
def Geom.isMulti : Geom → Bool
  | .multi _ => true
  | _ => false

/-- A topology the command cannot repair: its reconstructed geometry is a
multi-part geometry. -/
def topoHasError (db : DB) (t : Topology) : Bool :=
  (topoGeomComputed db t).isMulti

/-- Renumber a list of aggregations with consecutive orders starting at `n`. -/
def renumberFrom (n : ℕ) : List PathAggregation → List PathAggregation
  | [] => []
  | a :: rest => { a with order := n } :: renumberFrom (n + 1) rest

/-- Reassign the orders of a topology's aggregations to `0 .. n-1` following
the traversal order of the topology (the stored aggregation sequence). -/
def reorderTopo (t : Topology) : Topology :=
  { t with aggregations := renumberFrom 0 t.aggregations }

/-- Did the command change this topology (its orders were not already
`0 .. n-1`)? -/
def topoChanged (db : DB) (t : Topology) : Bool :=
  !topoHasError db t && decide (ordersOf t ≠ List.range t.aggregations.length)

/-- Result of running `reorder_topologies`. -/
structure ReorderResult where
  db : DB
  updated : ℕ
  errors : List (String × ℕ)
deriving DecidableEq, Repr

/-- Modelled from the spec: the `reorder_topologies` management command — "a
reorder/repair pass that recomputes aggregation order after path edits".  For
each topology it reconstructs the geometry from the aggregations; a
multi-part result is reported under the errors (with the topology's kind and
id) and the topology is left untouched, otherwise the aggregation orders are
reassigned to `0 .. n-1`.  It reports the number of topologies whose orders
actually changed. -/
def reorder_topologies (db : DB) : ReorderResult :=
  { db := { db with
      topos := db.topos.map fun t => if topoHasError db t then t else reorderTopo t },
    updated := (db.topos.filter (topoChanged db)).length,
    errors := (db.topos.filter (topoHasError db)).map fun t => (t.kind, t.id) }

/-- The command's report line, e.g. `"1 topologies has beeen updated\n"`
(sic, as asserted by the test suite). -/
def reorderUpdatedLine (r : ReorderResult) : String :=
  toString r.updated ++ " topologies has beeen updated\n"

/-- The command's error block, e.g. `"Topologies with errors :\nTREK id: 7\n"`. -/
def reorderErrorBlock (r : ReorderResult) : String :=
  if r.errors.isEmpty then ""
  else "Topologies with errors :\n" ++
    String.join (r.errors.map fun e => e.1 ++ " id: " ++ toString e.2 ++ "\n")

/-! ## Splitting a path (spec-modelled) -/

/-- Modelled from the spec: how a single aggregation referencing the split
path is re-expressed against the two sub-paths `id1` (fractions `0..t`) and
`id2` (fractions `t..1`).  An aggregation lying on one side is rescaled onto
that sub-path; an aggregation spanning the split point is replaced by two
aggregations — one per sub-path, in traversal direction — both keeping the
original `order` value. -/
def scaleAggToSub (t : ℚ) (id1 id2 : ℕ) (a : PathAggregation) : List PathAggregation :=
  let s := a.start_position
  let e := a.end_position
  if s ≤ t ∧ e ≤ t then
    [{ path := id1, start_position := s / t, end_position := e / t, order := a.order }]
  else if t ≤ s ∧ t ≤ e then
    [{ path := id2, start_position := (s - t) / (1 - t),
       end_position := (e - t) / (1 - t), order := a.order }]
  else if s < e then
    [{ path := id1, start_position := s / t, end_position := 1, order := a.order },
     { path := id2, start_position := 0, end_position := (e - t) / (1 - t), order := a.order }]
  else
    [{ path := id2, start_position := (s - t) / (1 - t), end_position := 0, order := a.order },
     { path := id1, start_position := 1, end_position := e / t, order := a.order }]

/-- Re-express every aggregation of a list against the sub-paths of the split
path `pid`. -/
def splitAggs (pid : ℕ) (t : ℚ) (id1 id2 : ℕ) (aggs : List PathAggregation) :
    List PathAggregation :=
  aggs.flatMap fun a => if a.path = pid then scaleAggToSub t id1 id2 a else [a]

/-- The database after the path rows and the aggregations have been
rewritten by a split, but before the stored topology geometries are
refreshed. -/
def splitMid (db : DB) (pid : ℕ) (t : ℚ) (id1 id2 : ℕ) (p : Path) : DB :=
  { paths := db.paths.flatMap fun q =>
      if q.id = pid then
        [{ id := id1, geom := subLine p.geom 0 t, visible := q.visible },
         { id := id2, geom := subLine p.geom t 1, visible := q.visible }]
      else [q],
    topos := db.topos.map fun u =>
      { u with aggregations := splitAggs pid t id1 id2 u.aggregations } }

/-- Modelled from the spec: splitting the path `pid` at fractional position
`t` (e.g. because a newly created path crosses it).  The path is replaced by
the two sub-paths, every aggregation referencing it is immediately
re-expressed against them, and each topology's stored geometry is recomputed
from its new aggregations. -/
def splitPath (db : DB) (pid : ℕ) (t : ℚ) (id1 id2 : ℕ) : DB :=
  match db.findPath pid with
  | none => db
  | some p =>
    let mid := splitMid db pid t id1 id2 p
    { mid with topos := mid.topos.map fun u => { u with geom := topoGeomComputed mid u } }

/-! ## The `remove_duplicate_paths` management command (spec-modelled) -/

/-- The duplicate class of a geometry: all paths whose geometry is exactly
(point for point, same direction) the given polyline. -/
def dupClass (db : DB) (g : Polyline) : List Path :=
  db.paths.filter fun p => p.geom = g

/-- The surviving path of a duplicate class: a visible one when the class has
one, otherwise the first. -/
def survivorOf (c : List Path) : Option Path :=
  match c.find? (fun p => p.visible) with
  | some p => some p
  | none => c.head?

/-- Does `remove_duplicate_paths` keep this path (it is the survivor of its
duplicate class)? -/
def keepPath (db : DB) (p : Path) : Bool :=
  match survivorOf (dupClass db p.geom) with
  | some s => p.id = s.id
  | none => true

/-- Is this path deleted by the command: not the survivor of its class, and
its deletion did not raise?  `del` models `Path.delete`, which the test suite
mocks with an always-raising function. -/
def pathDeleted (db : DB) (del : ℕ → Except String Unit) (p : Path) : Bool :=
  !keepPath db p && (del p.id).isOk

/-- Where an aggregation referencing `pid` points after the command: the
survivor of the deleted path's duplicate class, or `pid` itself when the path
was kept. -/
def redirectId (db : DB) (del : ℕ → Except String Unit) (pid : ℕ) : ℕ :=
  match db.findPath pid with
  | none => pid
  | some p =>
    if pathDeleted db del p then
      match survivorOf (dupClass db p.geom) with
      | some s => s.id
      | none => pid
    else pid

/-- Result of running `remove_duplicate_paths`. -/
structure RemoveResult where
  db : DB
  deletedCount : ℕ
  errors : List String
deriving DecidableEq, Repr

/-- Modelled from the spec: the `remove_duplicate_paths` management command —
"deduplication removes redundant paths that have identical geometry while
migrating dependent aggregations to a surviving path".  Each duplicate class
keeps one survivor (preferring a visible path); the other members are
deleted, their dependent aggregations migrated to the survivor.  A deletion
that raises is reported among the errors and leaves that path (and its
aggregations) in place. -/
def remove_duplicate_paths (db : DB) (del : ℕ → Except String Unit) : RemoveResult :=
  { db :=
      { paths := db.paths.filter fun p => !pathDeleted db del p,
        topos := db.topos.map fun u =>
          { u with aggregations := u.aggregations.map fun a =>
              { a with path := redirectId db del a.path } } },
    deletedCount := (db.paths.filter (pathDeleted db del)).length,
    errors := db.paths.filterMap fun p =>
      if keepPath db p then none
      else
        match del p.id with
        | .error e => some e
        | .ok _ => none }

/-- The command's report line, e.g. `"0 duplicate paths have been deleted\n"`. -/
def removeOutputLine (r : RemoveResult) : String :=
  toString r.deletedCount ++ " duplicate paths have been deleted\n"

/-- A `Path.delete` that always succeeds. -/
def delOk : ℕ → Except String Unit := fun _ => .ok ()

/-! ## The zoning `ZoningPropertiesMixin` (embedded from
`geotrek/zoning/mixins.py`) -/

/-- A zoning element (restricted area, district or city) with its `published`
flag. -/
structure ZElem where
  name : String
  published : Bool
deriving DecidableEq, Repr

/-- An object using `ZoningPropertiesMixin`: its `areas`, `districts` and
`cities` collections, and whether the object itself has a `published`
attribute (`hasattr(self, 'published')`). -/
structure ZObj where
  areas : List ZElem
  districts : List ZElem
  cities : List ZElem
  hasPublished : Bool
deriving DecidableEq, Repr

/-- `ZoningPropertiesMixin.published_areas`. -/
def published_areas (o : ZObj) : List ZElem :=
  if !o.hasPublished then o.areas
  else o.areas.filter fun a => a.published

/-- `ZoningPropertiesMixin.published_districts`. -/
def published_districts (o : ZObj) : List ZElem :=
  if !o.hasPublished then o.districts
  else o.districts.filter fun d => d.published

/-- `ZoningPropertiesMixin.published_cities`. -/
def published_cities (o : ZObj) : List ZElem :=
  if !o.hasPublished then o.cities
  else o.cities.filter fun c => c.published

/-! ## Concrete databases mirroring the test suite's fixtures -/

/-- The `RemoveDuplicatePathTest` fixture: three duplicate pairs, one path
whose geometry is the point-for-point reverse of another's, and two point
topologies (POIs) referencing paths 2 and 4. -/
def exampleDupDB : DB :=
  { paths := [⟨1, [⟨0, 0⟩, ⟨1, 0⟩, ⟨2, 0⟩], true⟩,
              ⟨2, [⟨0, 0⟩, ⟨1, 0⟩, ⟨2, 0⟩], true⟩,
              ⟨3, [⟨0, 2⟩, ⟨1, 2⟩, ⟨2, 2⟩], true⟩,
              ⟨4, [⟨0, 2⟩, ⟨1, 2⟩, ⟨2, 2⟩], true⟩,
              ⟨5, [⟨2, 2⟩, ⟨1, 2⟩, ⟨0, 2⟩], true⟩,
              ⟨6, [⟨4, 0⟩, ⟨6, 0⟩], true⟩,
              ⟨7, [⟨4, 0⟩, ⟨6, 0⟩], true⟩],
    topos := [{ id := 20, kind := "POI", geom := Geom.point ⟨1, 0⟩,
                aggregations := [⟨2, 1/2, 1/2, 0⟩] },
              { id := 21, kind := "POI", geom := Geom.point ⟨1, 2⟩,
                aggregations := [⟨4, 1/2, 1/2, 0⟩] }] }

/-- The `test_remove_duplicate_path_visible` fixture: same, but paths 1, 3
and 4 have been made invisible. -/
def exampleDupDBVis : DB :=
  { exampleDupDB with
      paths := exampleDupDB.paths.map fun p =>
        if p.id = 1 ∨ p.id = 3 ∨ p.id = 4 then { p with visible := false } else p }

/-- A two-path database carrying one topology over both paths, as in
`ReorderTopologiesPathAggregationTest` before the split. -/
def exampleSplitDB : DB :=
  { paths := [⟨1, [⟨0, 0⟩, ⟨50, 50⟩], true⟩, ⟨2, [⟨50, 50⟩, ⟨100, 100⟩], true⟩],
    topos := [{ id := 10, kind := "TOPOLOGY",
                geom := Geom.line [⟨0, 0⟩, ⟨50, 50⟩, ⟨100, 100⟩],
                aggregations := [⟨1, 0, 1, 0⟩, ⟨2, 0, 1, 1⟩] }] }

/-- `exampleSplitDB` after path 1 has been split at fractional position
`9/10` (the crossing point `(45, 45)` of the new path of
`test_split_reorder_1`), the sub-paths receiving ids 3 and 4. -/
def exampleSplitDBAfter : DB :=
  splitPath exampleSplitDB 1 (9/10) 3 4

/-- Reversal of a geometry, representing traversal against the direction. -/
def Geom.rev : Geom → Geom
  | .point p => .point p
  | .line l => .line l.reverse
  | .multi ls => .multi (ls.map List.reverse)

/-! ## Basic lemmas -/

theorem lerp_zero (p q : Pt) : lerp p q 0 = p := by
  simp [lerp]

theorem lerp_one (p q : Pt) : lerp p q 1 = q := by
  simp [lerp]

theorem renumberFrom_map_order (n : ℕ) (l : List PathAggregation) :
    (renumberFrom n l).map PathAggregation.order = List.range' n l.length := by
  induction l generalizing n with
  | nil => simp [renumberFrom]
  | cons a rest ih => simp [renumberFrom, List.range'_succ, ih]

theorem ordersOf_reorderTopo (t : Topology) :
    ordersOf (reorderTopo t) = List.range t.aggregations.length := by
  simp [ordersOf, reorderTopo, renumberFrom_map_order, List.range_eq_range']

theorem renumberFrom_map_fields (n : ℕ) (l : List PathAggregation)
    (f : PathAggregation → ℕ × ℚ × ℚ)
    (hf : ∀ a i, f { a with order := i } = f a) :
    (renumberFrom n l).map f = l.map f := by
  induction l generalizing n with
  | nil => rfl
  | cons a rest ih => simp [renumberFrom, hf, ih]

theorem topoPieces_paths_congr (db db' : DB) (h : db'.paths = db.paths) (t : Topology) :
    topoPieces db' t = topoPieces db t := by
  simp [topoPieces, aggGeom, DB.pathGeom, DB.findPath, h]

theorem topoPieces_reorderTopo (db : DB) (t : Topology) :
    topoPieces db (reorderTopo t) = topoPieces db t := by
  show (renumberFrom 0 t.aggregations).map (aggGeom db) = t.aggregations.map (aggGeom db)
  generalize 0 = n
  induction t.aggregations generalizing n with
  | nil => rfl
  | cons a rest ih => simp [renumberFrom, aggGeom, ih]

/-! ## C10: zoning published collections -/

/-- C10: For every object using `ZoningPropertiesMixin`, if the object has no
`published` attribute then `published_areas`, `published_districts` and
`published_cities` return exactly `areas`, `districts` and `cities`;
otherwise each returns exactly the sublist of the corresponding collection
whose elements have a true `published` flag, preserving order — so the
published collections are always sub-collections of the unfiltered ones. -/
theorem zoning_published_collections (o : ZObj) :
    (o.hasPublished = false →
      published_areas o = o.areas ∧
      published_districts o = o.districts ∧
      published_cities o = o.cities) ∧
    (o.hasPublished = true →
      published_areas o = o.areas.filter (fun a => a.published) ∧
      published_districts o = o.districts.filter (fun d => d.published) ∧
      published_cities o = o.cities.filter (fun c => c.published)) ∧
    (published_areas o).Sublist o.areas ∧
    (published_districts o).Sublist o.districts ∧
    (published_cities o).Sublist o.cities := by
  refine ⟨fun h => ?_, fun h => ?_, ?_, ?_, ?_⟩ <;>
    cases hp : o.hasPublished <;>
      simp_all [published_areas, published_districts, published_cities,
        List.filter_sublist, List.Sublist.refl]

/-- Closed instance of `zoning_published_collections`: both the attribute-less
branch and the filtering branch evaluated on concrete objects. -/
theorem zoning_published_collections_witness :
    published_areas ⟨[⟨"a", true⟩, ⟨"b", false⟩], [], [], false⟩ =
      [⟨"a", true⟩, ⟨"b", false⟩] ∧
    published_areas ⟨[⟨"a", true⟩, ⟨"b", false⟩], [], [], true⟩ = [⟨"a", true⟩] :=
  ⟨((zoning_published_collections _).1 rfl).1,
    by rw [((zoning_published_collections _).2.1 rfl).1]; rfl⟩

/-! ## C7: fractional positions of aggregations -/

/-- C7: Every `PathAggregation` expresses a topology's position along its
referenced path via start and end fractional positions, each lying in
`[0,1]`; start greater than end is permitted and represents traversal against
the path's direction (the substring is the reversed forward substring), and
start equal to end represents a single point on the path. -/
theorem aggregation_fractional_positions (db : DB) (l : Polyline) (a b : ℚ)
    (hwf : db.wf) :
    (∀ t ∈ db.topos, ∀ g ∈ t.aggregations,
      0 ≤ g.start_position ∧ g.start_position ≤ 1 ∧
      0 ≤ g.end_position ∧ g.end_position ≤ 1) ∧
    smartLineSubstring l a a = Geom.point (pointAt l a) ∧
    (b < a → smartLineSubstring l a b = (smartLineSubstring l b a).rev) := by
  refine ⟨fun t ht g hg => ?_, ?_, fun hba => ?_⟩
  · obtain ⟨-, -, hpos⟩ := hwf.2 t ht
    exact ⟨(hpos g hg).1, (hpos g hg).2.1, (hpos g hg).2.2.1, (hpos g hg).2.2.2.1⟩
  · simp [smartLineSubstring]
  · have hne : a ≠ b := ne_of_gt hba
    have hne' : b ≠ a := ne_of_lt hba
    rw [smartLineSubstring, smartLineSubstring, if_neg hne, if_neg (not_lt.mpr hba.le),
      if_neg hne', if_pos hba, Geom.rev]

/-- Closed instance of `aggregation_fractional_positions` on a concrete
well-formed database and a concrete reversed substring. -/
theorem aggregation_fractional_positions_witness :
    smartLineSubstring [⟨0, 0⟩, ⟨10, 0⟩] (1 : ℚ) 0 =
      (smartLineSubstring [⟨0, 0⟩, ⟨10, 0⟩] (0 : ℚ) 1).rev ∧
    smartLineSubstring [⟨0, 0⟩, ⟨10, 0⟩] (1/2 : ℚ) (1/2) =
      Geom.point (pointAt [⟨0, 0⟩, ⟨10, 0⟩] (1/2)) := by
  have hwf : DB.wf
      { paths := [⟨1, [⟨0, 0⟩, ⟨10, 0⟩], true⟩],
        topos := [{ id := 5, kind := "POI",
                    geom := Geom.point ⟨5, 0⟩,
                    aggregations := [⟨1, 1/2, 1/2, 0⟩] }] } := by decide
  have h1 := aggregation_fractional_positions _ [⟨0, 0⟩, ⟨10, 0⟩] 1 0 hwf
  have h2 := aggregation_fractional_positions _ [⟨0, 0⟩, ⟨10, 0⟩] (1/2) (1/2) hwf
  exact ⟨h1.2.2 (by norm_num), h2.2.1⟩

theorem reorderImage_err (db : DB) (t : Topology) (h : topoHasError db t = true) :
    (fun u => if topoHasError db u then u else reorderTopo u) t = t := by
  show (if topoHasError db t = true then t else reorderTopo t) = t
  rw [if_pos h]

theorem reorderImage_ok (db : DB) (t : Topology) (h : topoHasError db t = false) :
    (fun u => if topoHasError db u then u else reorderTopo u) t = reorderTopo t := by
  show (if topoHasError db t = true then t else reorderTopo t) = reorderTopo t
  rw [h]
  simp

/-! ## C6: `reorder_topologies` only touches the `order` field -/

/-- C6: Running `reorder_topologies` changes only the `order` field of the
`PathAggregation` records: the path geometries are left unchanged, and for
every topology the stored geometry, id, kind and the path/start/end data of
its aggregations are unchanged, so the reconstructed topology geometry is
equal before and after the command. -/
theorem reorder_topologies_frame (db : DB) :
    (reorder_topologies db).db.paths = db.paths ∧
    ∀ t ∈ db.topos,
      ∃ t' ∈ (reorder_topologies db).db.topos,
        t'.id = t.id ∧ t'.kind = t.kind ∧ t'.geom = t.geom ∧
        t'.aggregations.map (fun a => (a.path, a.start_position, a.end_position)) =
          t.aggregations.map (fun a => (a.path, a.start_position, a.end_position)) ∧
        topoGeomComputed (reorder_topologies db).db t' = topoGeomComputed db t := by
  refine ⟨rfl, fun t ht => ?_⟩
  have hpaths : (reorder_topologies db).db.paths = db.paths := rfl
  by_cases h : topoHasError db t
  · refine ⟨t, ?_, rfl, rfl, rfl, rfl, ?_⟩
    · exact reorderImage_err db t h ▸ List.mem_map_of_mem _ ht
    · unfold topoGeomComputed
      rw [topoPieces_paths_congr _ _ hpaths]
  · have h' : topoHasError db t = false := Bool.not_eq_true _ |>.mp h
    refine ⟨reorderTopo t, ?_, rfl, rfl, rfl, ?_, ?_⟩
    · exact reorderImage_ok db t h' ▸ List.mem_map_of_mem _ ht
    · exact renumberFrom_map_fields 0 t.aggregations _ (fun a i => rfl)
    · unfold topoGeomComputed
      rw [topoPieces_paths_congr _ _ hpaths, topoPieces_reorderTopo]

/-- Closed instance of `reorder_topologies_frame` on a concrete database. -/
theorem reorder_topologies_frame_witness :
    ∃ t' ∈ (reorder_topologies
        { paths := [⟨1, [⟨0, 0⟩, ⟨1, 0⟩], true⟩],
          topos := [{ id := 3, kind := "TOPOLOGY",
                      geom := Geom.line [⟨0, 0⟩, ⟨1, 0⟩],
                      aggregations := [⟨1, 0, 1/2, 0⟩, ⟨1, 1/2, 1, 0⟩] }] }).db.topos,
      t'.geom = Geom.line [⟨0, 0⟩, ⟨1, 0⟩] := by
  obtain ⟨t', ht', hid, hkind, hgeom, hfields, hcomp⟩ :=
    (reorder_topologies_frame
      { paths := [⟨1, [⟨0, 0⟩, ⟨1, 0⟩], true⟩],
        topos := [{ id := 3, kind := "TOPOLOGY",
                    geom := Geom.line [⟨0, 0⟩, ⟨1, 0⟩],
                    aggregations := [⟨1, 0, 1/2, 0⟩, ⟨1, 1/2, 1, 0⟩] }] }).2
      { id := 3, kind := "TOPOLOGY",
        geom := Geom.line [⟨0, 0⟩, ⟨1, 0⟩],
        aggregations := [⟨1, 0, 1/2, 0⟩, ⟨1, 1/2, 1, 0⟩] }
      (by decide)
  exact ⟨t', ht', hgeom⟩

/-! ## C2: `reorder_topologies` renumbers duplicated orders -/

/-- C2: For every topology whose aggregations carry duplicated order values
(and which is not an error topology), running `reorder_topologies` reassigns
the order values of its `n` aggregations to the consecutive strictly
increasing integers `0 .. n-1` following the traversal order of the topology
(the stored aggregation sequence), counts it among the changed topologies,
and reports the number of topologies updated. -/
theorem reorder_topologies_renumbers (db : DB) (t : Topology)
    (ht : t ∈ db.topos) (herr : topoHasError db t = false)
    (hdup : ¬ (ordersOf t).Nodup) :
    reorderTopo t ∈ (reorder_topologies db).db.topos ∧
    ordersOf (reorderTopo t) = List.range t.aggregations.length ∧
    t ∈ db.topos.filter (topoChanged db) ∧
    (reorder_topologies db).updated = (db.topos.filter (topoChanged db)).length := by
  refine ⟨?_, ordersOf_reorderTopo t, ?_, rfl⟩
  · exact reorderImage_ok db t herr ▸ List.mem_map_of_mem _ ht
  · refine List.mem_filter.mpr ⟨ht, ?_⟩
    simp only [topoChanged, herr, Bool.not_false, Bool.true_and, decide_eq_true_eq]
    intro h
    exact hdup (h ▸ List.nodup_range _)

/-- Closed instance of `reorder_topologies_renumbers`: a topology with
duplicated orders `[0, 0]` (as produced by a path split) is renumbered to
`[0, 1]`. -/
theorem reorder_topologies_renumbers_witness :
    ordersOf (reorderTopo
      { id := 3, kind := "TOPOLOGY",
        geom := Geom.line [⟨0, 0⟩, ⟨1/2, 0⟩, ⟨1, 0⟩],
        aggregations := [⟨1, 0, 1/2, 0⟩, ⟨1, 1/2, 1, 0⟩] }) = List.range 2 ∧
    (reorder_topologies
      { paths := [⟨1, [⟨0, 0⟩, ⟨1, 0⟩], true⟩],
        topos := [{ id := 3, kind := "TOPOLOGY",
                    geom := Geom.line [⟨0, 0⟩, ⟨1/2, 0⟩, ⟨1, 0⟩],
                    aggregations := [⟨1, 0, 1/2, 0⟩, ⟨1, 1/2, 1, 0⟩] }] }).updated = 1 := by
  have h := reorder_topologies_renumbers
    { paths := [⟨1, [⟨0, 0⟩, ⟨1, 0⟩], true⟩],
      topos := [{ id := 3, kind := "TOPOLOGY",
                  geom := Geom.line [⟨0, 0⟩, ⟨1/2, 0⟩, ⟨1, 0⟩],
                  aggregations := [⟨1, 0, 1/2, 0⟩, ⟨1, 1/2, 1, 0⟩] }] }
    { id := 3, kind := "TOPOLOGY",
      geom := Geom.line [⟨0, 0⟩, ⟨1/2, 0⟩, ⟨1, 0⟩],
      aggregations := [⟨1, 0, 1/2, 0⟩, ⟨1, 1/2, 1, 0⟩] }
    (by decide) (by decide) (by decide)
  exact ⟨h.2.1, by rw [h.2.2.2]; decide⟩

/-! ## C4: `reorder_topologies` reports degenerate topologies -/

/-- C4: The `reorder_topologies` command detects every degenerate topology
whose reconstructed geometry is a multi-part geometry: instead of updating
it, the command lists it under the errors with its kind and id, leaves it
untouched, and excludes it from the count of updated topologies. -/
theorem reorder_topologies_errors (db : DB) (t : Topology) (ht : t ∈ db.topos)
    (hM : (topoGeomComputed db t).isMulti = true) :
    (t.kind, t.id) ∈ (reorder_topologies db).errors ∧
    t ∈ (reorder_topologies db).db.topos ∧
    topoChanged db t = false ∧
    t ∉ db.topos.filter (topoChanged db) ∧
    (reorder_topologies db).updated = (db.topos.filter (topoChanged db)).length := by
  have herr : topoHasError db t = true := hM
  refine ⟨?_, ?_, ?_, ?_, rfl⟩
  · exact List.mem_map_of_mem _ (List.mem_filter.mpr ⟨ht, herr⟩)
  · exact reorderImage_err db t herr ▸ List.mem_map_of_mem _ ht
  · simp [topoChanged, herr]
  · intro hmem
    have := (List.mem_filter.mp hmem).2
    simp [topoChanged, herr] at this

/-- Closed instance of `reorder_topologies_errors`: a trek whose aggregation
geometries do not chain is reported with its kind and id and the error block
is printed. -/
theorem reorder_topologies_errors_witness :
    ("TREK", 7) ∈ (reorder_topologies
      { paths := [⟨1, [⟨0, 0⟩, ⟨1, 1⟩], true⟩, ⟨2, [⟨1, 1⟩, ⟨2, 2⟩], true⟩,
                  ⟨5, [⟨0, 2⟩, ⟨2, 0⟩], true⟩],
        topos := [{ id := 7, kind := "TREK", geom := Geom.multi [],
                    aggregations := [⟨1, 0, 1, 0⟩, ⟨5, 1, 1/2, 1⟩,
                                     ⟨5, 1/2, 1/2, 2⟩, ⟨2, 0, 1, 3⟩] }] }).errors ∧
    reorderErrorBlock (reorder_topologies
      { paths := [⟨1, [⟨0, 0⟩, ⟨1, 1⟩], true⟩, ⟨2, [⟨1, 1⟩, ⟨2, 2⟩], true⟩,
                  ⟨5, [⟨0, 2⟩, ⟨2, 0⟩], true⟩],
        topos := [{ id := 7, kind := "TREK", geom := Geom.multi [],
                    aggregations := [⟨1, 0, 1, 0⟩, ⟨5, 1, 1/2, 1⟩,
                                     ⟨5, 1/2, 1/2, 2⟩, ⟨2, 0, 1, 3⟩] }] }) =
      "Topologies with errors :\nTREK id: 7\n" := by
  have h := reorder_topologies_errors
    { paths := [⟨1, [⟨0, 0⟩, ⟨1, 1⟩], true⟩, ⟨2, [⟨1, 1⟩, ⟨2, 2⟩], true⟩,
                ⟨5, [⟨0, 2⟩, ⟨2, 0⟩], true⟩],
      topos := [{ id := 7, kind := "TREK", geom := Geom.multi [],
                  aggregations := [⟨1, 0, 1, 0⟩, ⟨5, 1, 1/2, 1⟩,
                                   ⟨5, 1/2, 1/2, 2⟩, ⟨2, 0, 1, 3⟩] }] }
    { id := 7, kind := "TREK", geom := Geom.multi [],
      aggregations := [⟨1, 0, 1, 0⟩, ⟨5, 1, 1/2, 1⟩, ⟨5, 1/2, 1/2, 2⟩, ⟨2, 0, 1, 3⟩] }
    (by decide) (by decide)
  exact ⟨h.1, by decide⟩

/-! ## C1: the reconstruction invariant -/

/-- C1: For every topology of a well-formed database, the concatenation, in
aggregation order, of the geometries obtained by taking each
`PathAggregation`'s fractional substring (from `start_position` to
`end_position`) of its referenced path's geometry reconstructs exactly the
topology's geometry; in particular this holds after running the
`reorder_topologies` command. -/
theorem reconstruction_invariant (db : DB) (hwf : db.wf) :
    (∀ t ∈ db.topos, smartMakeLine (topoPieces db t) = t.geom) ∧
    (∀ t ∈ (reorder_topologies db).db.topos,
      smartMakeLine (topoPieces (reorder_topologies db).db t) = t.geom) := by
  have hbase : ∀ t ∈ db.topos, smartMakeLine (topoPieces db t) = t.geom :=
    fun t ht => ((hwf.2 t ht).1).symm
  refine ⟨hbase, fun t ht => ?_⟩
  obtain ⟨t0, ht0, rfl⟩ := List.mem_map.mp ht
  have hpaths : (reorder_topologies db).db.paths = db.paths := rfl
  by_cases h : topoHasError db t0
  · rw [if_pos h, topoPieces_paths_congr _ _ hpaths]
    exact hbase t0 ht0
  · rw [if_neg h, topoPieces_paths_congr _ _ hpaths, topoPieces_reorderTopo]
    exact hbase t0 ht0

/-- Closed instance of `reconstruction_invariant`: the invariant evaluated on
a concrete well-formed database, before and after the command. -/
theorem reconstruction_invariant_witness :
    smartMakeLine (topoPieces
      { paths := [⟨1, [⟨0, 0⟩, ⟨1, 0⟩], true⟩],
        topos := [{ id := 3, kind := "TOPOLOGY",
                    geom := Geom.line [⟨0, 0⟩, ⟨1/2, 0⟩, ⟨1, 0⟩],
                    aggregations := [⟨1, 0, 1/2, 0⟩, ⟨1, 1/2, 1, 0⟩] }] }
      { id := 3, kind := "TOPOLOGY",
        geom := Geom.line [⟨0, 0⟩, ⟨1/2, 0⟩, ⟨1, 0⟩],
        aggregations := [⟨1, 0, 1/2, 0⟩, ⟨1, 1/2, 1, 0⟩] }) =
      Geom.line [⟨0, 0⟩, ⟨1/2, 0⟩, ⟨1, 0⟩] :=
  (reconstruction_invariant
    { paths := [⟨1, [⟨0, 0⟩, ⟨1, 0⟩], true⟩],
      topos := [{ id := 3, kind := "TOPOLOGY",
                  geom := Geom.line [⟨0, 0⟩, ⟨1/2, 0⟩, ⟨1, 0⟩],
                  aggregations := [⟨1, 0, 1/2, 0⟩, ⟨1, 1/2, 1, 0⟩] }] }
    (by decide)).1 _ (by decide)

/-! ## Lemmas about `remove_duplicate_paths` -/

theorem mem_dupClass (db : DB) {g : Polyline} {q : Path} (hq : q ∈ dupClass db g) :
    q ∈ db.paths ∧ q.geom = g := by
  have := List.mem_filter.mp hq
  exact ⟨this.1, of_decide_eq_true this.2⟩

theorem self_mem_dupClass (db : DB) {p : Path} (hp : p ∈ db.paths) :
    p ∈ dupClass db p.geom :=
  List.mem_filter.mpr ⟨hp, by simp⟩

theorem survivorOf_mem {c : List Path} {s : Path} (h : survivorOf c = some s) :
    s ∈ c := by
  unfold survivorOf at h
  cases hf : c.find? (fun p => p.visible) with
  | some p =>
    rw [hf] at h
    cases h
    exact List.mem_of_find?_eq_some hf
  | none =>
    rw [hf] at h
    cases c with
    | nil => cases h
    | cons a tl =>
      cases h
      exact List.mem_cons_self _ _

theorem survivorOf_isSome {c : List Path} (h : c ≠ []) :
    (survivorOf c).isSome := by
  unfold survivorOf
  cases hf : c.find? (fun p => p.visible) with
  | some p => rfl
  | none =>
    cases c with
    | nil => exact absurd rfl h
    | cons a tl => rfl

theorem keepPath_eq_survivor (db : DB) (p s : Path)
    (h : survivorOf (dupClass db p.geom) = some s) :
    keepPath db p = decide (p.id = s.id) := by
  unfold keepPath
  rw [h]

theorem keepPath_of_survivor (db : DB) {p s : Path}
    (h : survivorOf (dupClass db p.geom) = some s) :
    keepPath db s = true := by
  have hs := mem_dupClass db (survivorOf_mem h)
  have hcl : dupClass db s.geom = dupClass db p.geom := by rw [hs.2]
  unfold keepPath
  rw [hcl, h]
  simp

theorem find_id_of_nodup (l : List Path) (hids : (l.map Path.id).Nodup)
    (p : Path) (hp : p ∈ l) :
    l.find? (fun q => q.id = p.id) = some p := by
  induction l with
  | nil => cases hp
  | cons a tl ih =>
    rw [List.map_cons] at hids
    have hnd := List.nodup_cons.mp hids
    rcases List.mem_cons.mp hp with rfl | hp'
    · exact List.find?_cons_of_pos _ (by simp)
    · have hne : ¬ a.id = p.id := fun he =>
        hnd.1 (he ▸ List.mem_map_of_mem Path.id hp')
      rw [List.find?_cons_of_neg _ (by simpa using hne)]
      exact ih hnd.2 hp'

theorem pathDeleted_delOk (db : DB) (p : Path) :
    pathDeleted db delOk p = !keepPath db p := by
  simp [pathDeleted, delOk, Except.isOk, Except.toBool]

theorem mem_remove_paths (db : DB) (p : Path) :
    p ∈ (remove_duplicate_paths db delOk).db.paths ↔
      p ∈ db.paths ∧ keepPath db p = true := by
  show p ∈ db.paths.filter _ ↔ _
  rw [List.mem_filter]
  constructor
  · rintro ⟨h1, h2⟩
    rw [pathDeleted_delOk, Bool.not_not] at h2
    exact ⟨h1, h2⟩
  · rintro ⟨h1, h2⟩
    refine ⟨h1, ?_⟩
    rw [pathDeleted_delOk, Bool.not_not, h2]

theorem remove_paths_nodup_ids (db : DB)
    (hids : (db.paths.map Path.id).Nodup) :
    ((remove_duplicate_paths db delOk).db.paths.map Path.id).Nodup := by
  have hsub : (remove_duplicate_paths db delOk).db.paths.map Path.id
      |>.Sublist (db.paths.map Path.id) :=
    List.Sublist.map Path.id (List.filter_sublist _)
  exact hids.sublist hsub

/-! ## C5: `remove_duplicate_paths` removes exact duplicates -/

/-- C5: The `remove_duplicate_paths` command deletes all but one path from
every set of paths whose geometries are identical, migrating the dependent
aggregations of each deleted path to the surviving path, so that afterwards
no two remaining paths have identical geometry; a path whose geometry is the
point-for-point reverse of another path's geometry (and identical to no
other path's) is not treated as its duplicate and survives. -/
theorem remove_duplicate_paths_dedups (db : DB)
    (hids : (db.paths.map Path.id).Nodup) :
    (∀ p ∈ (remove_duplicate_paths db delOk).db.paths,
     ∀ q ∈ (remove_duplicate_paths db delOk).db.paths,
      p.id ≠ q.id → p.geom ≠ q.geom) ∧
    (∀ pid, (db.findPath pid).isSome →
      ∃ s, (remove_duplicate_paths db delOk).db.findPath (redirectId db delOk pid) = some s ∧
        s.geom = db.pathGeom pid) ∧
    (∀ u ∈ db.topos,
      { u with aggregations := u.aggregations.map fun a =>
          { a with path := redirectId db delOk a.path } }
        ∈ (remove_duplicate_paths db delOk).db.topos) ∧
    (∀ p ∈ db.paths, (∀ q ∈ db.paths, q.geom = p.geom → q = p) →
      p ∈ (remove_duplicate_paths db delOk).db.paths) := by
  refine ⟨?_, ?_, ?_, ?_⟩
  · intro p hp q hq hne hgeom
    obtain ⟨hp1, hp2⟩ := (mem_remove_paths db p).mp hp
    obtain ⟨hq1, hq2⟩ := (mem_remove_paths db q).mp hq
    obtain ⟨sp, hsp⟩ := Option.isSome_iff_exists.mp
      (survivorOf_isSome (List.ne_nil_of_mem (self_mem_dupClass db hp1)))
    obtain ⟨sq, hsq⟩ := Option.isSome_iff_exists.mp
      (survivorOf_isSome (List.ne_nil_of_mem (self_mem_dupClass db hq1)))
    have hpid : p.id = sp.id := by
      have := (keepPath_eq_survivor db p sp hsp) ▸ hp2
      exact of_decide_eq_true this
    have hqid : q.id = sq.id := by
      have := (keepPath_eq_survivor db q sq hsq) ▸ hq2
      exact of_decide_eq_true this
    have hcl : dupClass db p.geom = dupClass db q.geom := by rw [hgeom]
    rw [hcl, hsq] at hsp
    cases hsp
    exact hne (hpid.trans hqid.symm)
  · intro pid hsome
    obtain ⟨p, hfind⟩ := Option.isSome_iff_exists.mp hsome
    have hfind' : db.paths.find? (fun q => q.id = pid) = some p := hfind
    have hp_mem : p ∈ db.paths := List.mem_of_find?_eq_some hfind'
    have hp_id : p.id = pid := by
      have := List.find?_some hfind'
      simpa using this
    have hgeom_eq : db.pathGeom pid = p.geom := by
      unfold DB.pathGeom
      rw [hfind]
      rfl
    have hnodup' := remove_paths_nodup_ids db hids
    simp only [redirectId, hfind]
    by_cases hdel : pathDeleted db delOk p
    · rw [if_pos hdel]
      obtain ⟨s, hs⟩ := Option.isSome_iff_exists.mp
        (survivorOf_isSome (List.ne_nil_of_mem (self_mem_dupClass db hp_mem)))
      rw [hs]
      have hs_mem := mem_dupClass db (survivorOf_mem hs)
      have hs_keep : keepPath db s = true := keepPath_of_survivor db hs
      have hs_in : s ∈ (remove_duplicate_paths db delOk).db.paths :=
        (mem_remove_paths db s).mpr ⟨hs_mem.1, hs_keep⟩
      refine ⟨s, ?_, by rw [hs_mem.2, hgeom_eq]⟩
      exact find_id_of_nodup _ hnodup' s hs_in
    · rw [if_neg hdel]
      have hkeep : keepPath db p = true := by
        rw [pathDeleted_delOk] at hdel
        simpa using hdel
      have hp_in : p ∈ (remove_duplicate_paths db delOk).db.paths :=
        (mem_remove_paths db p).mpr ⟨hp_mem, hkeep⟩
      refine ⟨p, ?_, hgeom_eq.symm⟩
      have := find_id_of_nodup _ hnodup' p hp_in
      rwa [hp_id] at this
  · intro u hu
    exact List.mem_map_of_mem _ hu
  · intro p hp huniq
    have hmem : p ∈ dupClass db p.geom := self_mem_dupClass db hp
    have hall : ∀ q ∈ dupClass db p.geom, q = p := fun q hq =>
      huniq q (mem_dupClass db hq).1 (mem_dupClass db hq).2
    have hnd : (dupClass db p.geom).Nodup :=
      ((hids.of_map).filter _)
    have hcls : dupClass db p.geom = [p] := by
      cases hc : dupClass db p.geom with
      | nil => rw [hc] at hmem; cases hmem
      | cons a tl =>
        have ha : a = p := hall a (hc ▸ List.mem_cons_self a tl)
        cases tl with
        | nil => rw [ha]
        | cons b tl2 =>
          have hb : b = p := hall b (hc ▸ List.mem_cons_of_mem a (List.mem_cons_self b tl2))
          have hnd' := hc ▸ hnd
          have : a ∉ b :: tl2 := (List.nodup_cons.mp hnd').1
          exact absurd (by rw [ha, ← hb]; exact List.mem_cons_self b tl2) this
    have hsv : survivorOf (dupClass db p.geom) = some p := by
      rw [hcls]
      unfold survivorOf
      cases hv : p.visible
      · simp [List.find?, hv]
      · simp [List.find?, hv]
    refine (mem_remove_paths db p).mpr ⟨hp, ?_⟩
    rw [keepPath_eq_survivor db p p hsv]
    simp

/-- Closed instance of `remove_duplicate_paths_dedups` on the test fixture:
the reversed path 5 survives (it is nobody's duplicate), and the POI
aggregation that referenced the deleted duplicate path 4 is migrated to the
surviving path 3. -/
theorem remove_duplicate_paths_dedups_witness :
    (⟨5, [⟨2, 2⟩, ⟨1, 2⟩, ⟨0, 2⟩], true⟩ : Path) ∈
      (remove_duplicate_paths exampleDupDB delOk).db.paths ∧
    { id := 21, kind := "POI", geom := Geom.point ⟨1, 2⟩,
      aggregations := [⟨3, 1/2, 1/2, 0⟩] } ∈
      (remove_duplicate_paths exampleDupDB delOk).db.topos := by
  have h := remove_duplicate_paths_dedups exampleDupDB (by decide)
  refine ⟨h.2.2.2 _ (by decide) (by decide), ?_⟩
  have h3 := h.2.2.1
    { id := 21, kind := "POI", geom := Geom.point ⟨1, 2⟩,
      aggregations := [⟨4, 1/2, 1/2, 0⟩] } (by decide)
  have hred : (([⟨4, 1/2, 1/2, 0⟩] : List PathAggregation).map fun a =>
      { a with path := redirectId exampleDupDB delOk a.path }) =
      [⟨3, 1/2, 1/2, 0⟩] := by decide
  rw [hred] at h3
  exact h3

/-! ## C8: `remove_duplicate_paths` with a failing delete -/

/-- C8: If deleting a duplicate path raises an exception, the
`remove_duplicate_paths` command does not abort or propagate the exception:
it reports the error message and `0 duplicate paths have been deleted`, and
the database (including invisible paths) is left unchanged — no path is
deleted on error. -/
theorem remove_duplicate_paths_fail (db : DB) (m : String) :
    (remove_duplicate_paths db (fun _ => .error m)).db = db ∧
    (remove_duplicate_paths db (fun _ => .error m)).deletedCount = 0 ∧
    removeOutputLine (remove_duplicate_paths db (fun _ => .error m)) =
      "0 duplicate paths have been deleted\n" ∧
    (∀ e ∈ (remove_duplicate_paths db (fun _ => .error m)).errors, e = m) ∧
    ((∃ p ∈ db.paths, keepPath db p = false) →
      m ∈ (remove_duplicate_paths db (fun _ => .error m)).errors) := by
  have hdel : ∀ p, pathDeleted db (fun _ => .error m) p = false := by
    intro p
    simp [pathDeleted, Except.isOk, Except.toBool]
  have hpaths : (remove_duplicate_paths db (fun _ => .error m)).db.paths = db.paths := by
    show db.paths.filter _ = db.paths
    rw [List.filter_eq_self]
    intro a _
    rw [hdel a]
    rfl
  have hredir : ∀ pid, redirectId db (fun _ => .error m) pid = pid := by
    intro pid
    unfold redirectId
    cases hf : db.findPath pid with
    | none => rfl
    | some p => simp [hdel]
  have hmapid : ∀ {α : Type} (l : List α) (f : α → α), (∀ a ∈ l, f a = a) → l.map f = l := by
    intro α l f h
    induction l with
    | nil => rfl
    | cons a tl ih =>
      rw [List.map_cons, h a (List.mem_cons_self a tl),
        ih fun b hb => h b (List.mem_cons_of_mem a hb)]
  have htopos : (remove_duplicate_paths db (fun _ => .error m)).db.topos = db.topos := by
    show db.topos.map _ = db.topos
    refine hmapid _ _ fun u _ => ?_
    have hagg : (u.aggregations.map fun a =>
        { a with path := redirectId db (fun _ => .error m) a.path }) = u.aggregations := by
      refine hmapid _ _ fun a _ => ?_
      rw [hredir a.path]
    rw [hagg]
  have hcnt : (remove_duplicate_paths db (fun _ => .error m)).deletedCount = 0 := by
    show (db.paths.filter _).length = 0
    have : db.paths.filter (pathDeleted db (fun _ => .error m)) = [] := by
      cases hfe : db.paths.filter (pathDeleted db (fun _ => .error m)) with
      | nil => rfl
      | cons a tl =>
        have ha : a ∈ db.paths.filter (pathDeleted db (fun _ => .error m)) :=
          hfe ▸ List.mem_cons_self a tl
        have := (List.mem_filter.mp ha).2
        rw [hdel a] at this
        cases this
    rw [this]
    rfl
  refine ⟨?_, hcnt, ?_, ?_, ?_⟩
  · calc (remove_duplicate_paths db (fun _ => .error m)).db
        = { paths := (remove_duplicate_paths db (fun _ => .error m)).db.paths,
            topos := (remove_duplicate_paths db (fun _ => .error m)).db.topos } := rfl
    _ = { paths := db.paths, topos := db.topos } := by rw [hpaths, htopos]
    _ = db := rfl
  · rw [removeOutputLine, hcnt]
    rfl
  · intro e he
    obtain ⟨p, hp, hfe⟩ := List.mem_filterMap.mp he
    by_cases hk : keepPath db p
    · rw [if_pos hk] at hfe
      cases hfe
    · rw [if_neg hk] at hfe
      cases hfe
      rfl
  · rintro ⟨p, hp, hk⟩
    refine List.mem_filterMap.mpr ⟨p, hp, ?_⟩
    rw [if_neg (by rw [hk]; exact Bool.false_ne_true)]

/-- Closed instance of `remove_duplicate_paths_fail` on the test fixture:
nothing is deleted, the error message is reported, and the report line reads
`0 duplicate paths have been deleted`. -/
theorem remove_duplicate_paths_fail_witness :
    (remove_duplicate_paths exampleDupDB (fun _ => .error "An ERROR")).db = exampleDupDB ∧
    "An ERROR" ∈ (remove_duplicate_paths exampleDupDB (fun _ => .error "An ERROR")).errors ∧
    removeOutputLine (remove_duplicate_paths exampleDupDB (fun _ => .error "An ERROR")) =
      "0 duplicate paths have been deleted\n" := by
  have h := remove_duplicate_paths_fail exampleDupDB "An ERROR"
  exact ⟨h.1, h.2.2.2.2 ⟨⟨2, [⟨0, 0⟩, ⟨1, 0⟩, ⟨2, 0⟩], true⟩, by decide, by decide⟩,
    h.2.2.1⟩

/-! ## C9: visibility preference among duplicates -/

/-- C9: When `remove_duplicate_paths` processes a pair of duplicate paths of
which exactly one is invisible, it deletes the invisible path and keeps the
visible one, regardless of which path holds topologies; when both duplicates
are invisible, exactly one of them (the second) is still deleted. -/
theorem remove_duplicate_paths_visible (db : DB) (p q : Path)
    (hne : p.id ≠ q.id)
    (hclass : dupClass db p.geom = [p, q]) :
    (p.visible = true → q.visible = false →
      p ∈ (remove_duplicate_paths db delOk).db.paths ∧
      q ∉ (remove_duplicate_paths db delOk).db.paths) ∧
    (p.visible = false → q.visible = true →
      q ∈ (remove_duplicate_paths db delOk).db.paths ∧
      p ∉ (remove_duplicate_paths db delOk).db.paths) ∧
    (p.visible = false → q.visible = false →
      p ∈ (remove_duplicate_paths db delOk).db.paths ∧
      q ∉ (remove_duplicate_paths db delOk).db.paths) := by
  have hp_mem : p ∈ db.paths :=
    (mem_dupClass db (hclass ▸ List.mem_cons_self p [q])).1
  have hq_mem : q ∈ db.paths :=
    (mem_dupClass db (hclass ▸ List.mem_cons_of_mem p (List.mem_cons_self q []))).1
  have hq_geom : q.geom = p.geom :=
    (mem_dupClass db (hclass ▸ List.mem_cons_of_mem p (List.mem_cons_self q []))).2
  have hq_class : dupClass db q.geom = [p, q] := by rw [hq_geom, hclass]
  have main : ∀ s : Path, survivorOf (dupClass db p.geom) = some s →
      (s.id = p.id → p ∈ (remove_duplicate_paths db delOk).db.paths ∧
        q ∉ (remove_duplicate_paths db delOk).db.paths) ∧
      (s.id = q.id → q ∈ (remove_duplicate_paths db delOk).db.paths ∧
        p ∉ (remove_duplicate_paths db delOk).db.paths) := by
    intro s hs
    have hs' : survivorOf [p, q] = some s := by rw [← hclass]; exact hs
    have hkp : keepPath db p = decide (p.id = s.id) := keepPath_eq_survivor db p s hs
    have hkq : keepPath db q = decide (q.id = s.id) := by
      unfold keepPath
      rw [hq_class, hs']
    constructor
    · intro hsid
      constructor
      · exact (mem_remove_paths db p).mpr ⟨hp_mem, by rw [hkp, hsid]; simp⟩
      · intro hqin
        have hmem := ((mem_remove_paths db q).mp hqin).2
        rw [hkq] at hmem
        have hqid : q.id = s.id := of_decide_eq_true hmem
        exact hne (hqid.trans hsid).symm
    · intro hsid
      constructor
      · exact (mem_remove_paths db q).mpr ⟨hq_mem, by rw [hkq, hsid]; simp⟩
      · intro hpin
        have hmem := ((mem_remove_paths db p).mp hpin).2
        rw [hkp] at hmem
        have hpid : p.id = s.id := of_decide_eq_true hmem
        exact hne (hpid.trans hsid)
  refine ⟨fun hpv hqv => ?_, fun hpv hqv => ?_, fun hpv hqv => ?_⟩
  · have hs : survivorOf (dupClass db p.geom) = some p := by
      rw [hclass]
      unfold survivorOf
      rw [List.find?_cons_of_pos _ (by simp [hpv])]
    exact (main p hs).1 rfl
  · have hs : survivorOf (dupClass db p.geom) = some q := by
      rw [hclass]
      unfold survivorOf
      rw [List.find?_cons_of_neg _ (by simp [hpv]),
        List.find?_cons_of_pos _ (by simp [hqv])]
    exact (main q hs).2 rfl
  · have hs : survivorOf (dupClass db p.geom) = some p := by
      rw [hclass]
      unfold survivorOf
      rw [List.find?_cons_of_neg _ (by simp [hpv]),
        List.find?_cons_of_neg _ (by simp [hqv])]
      rfl
    exact (main p hs).1 rfl

/-- Closed instance of `remove_duplicate_paths_visible` on the visibility
fixture: in the pair `(1, 2)` path 1 is invisible, so the visible path 2
survives and path 1 is deleted; in the pair `(3, 4)`, both invisible, path 3
survives and path 4 is deleted. -/
theorem remove_duplicate_paths_visible_witness :
    ((⟨2, [⟨0, 0⟩, ⟨1, 0⟩, ⟨2, 0⟩], true⟩ : Path) ∈
        (remove_duplicate_paths exampleDupDBVis delOk).db.paths ∧
      (⟨1, [⟨0, 0⟩, ⟨1, 0⟩, ⟨2, 0⟩], false⟩ : Path) ∉
        (remove_duplicate_paths exampleDupDBVis delOk).db.paths) ∧
    ((⟨3, [⟨0, 2⟩, ⟨1, 2⟩, ⟨2, 2⟩], false⟩ : Path) ∈
        (remove_duplicate_paths exampleDupDBVis delOk).db.paths ∧
      (⟨4, [⟨0, 2⟩, ⟨1, 2⟩, ⟨2, 2⟩], false⟩ : Path) ∉
        (remove_duplicate_paths exampleDupDBVis delOk).db.paths) := by
  constructor
  · exact (remove_duplicate_paths_visible exampleDupDBVis
      ⟨1, [⟨0, 0⟩, ⟨1, 0⟩, ⟨2, 0⟩], false⟩ ⟨2, [⟨0, 0⟩, ⟨1, 0⟩, ⟨2, 0⟩], true⟩
      (by decide) (by decide)).2.1 rfl rfl
  · exact (remove_duplicate_paths_visible exampleDupDBVis
      ⟨3, [⟨0, 2⟩, ⟨1, 2⟩, ⟨2, 2⟩], false⟩ ⟨4, [⟨0, 2⟩, ⟨1, 2⟩, ⟨2, 2⟩], false⟩
      (by decide) (by decide)).2.2 rfl rfl

/-! ## Geometric lemmas for the split operation -/

theorem lerp_ne (P Q : Pt) (hPQ : P ≠ Q) {a b : ℚ} (hab : a ≠ b) :
    lerp P Q a ≠ lerp P Q b := by
  intro h
  rw [lerp, lerp, Pt.mk.injEq] at h
  have hx : (a - b) * (Q.x - P.x) = 0 := by linear_combination h.1
  have hy : (a - b) * (Q.y - P.y) = 0 := by linear_combination h.2
  apply hPQ
  have hab' : a - b ≠ 0 := sub_ne_zero.mpr hab
  obtain ⟨px, py⟩ : Q.x - P.x = 0 ∧ Q.y - P.y = 0 :=
    ⟨(mul_eq_zero.mp hx).resolve_left hab', (mul_eq_zero.mp hy).resolve_left hab'⟩
  cases P
  cases Q
  rw [Pt.mk.injEq]
  constructor <;> [skip; skip] <;> simp_all <;> linarith

theorem pointAt_pair (P Q : Pt) (x : ℚ) (hx : x ≤ 1) :
    pointAt [P, Q] x = lerp P Q x := by
  show pointAtAux P [Q] (x * (([Q] : List Pt).length : ℚ)) = lerp P Q x
  have h1 : (([Q] : List Pt).length : ℚ) = 1 := by norm_num
  rw [h1, mul_one, pointAtAux, if_pos hx]

theorem interiorVerts_pair (P Q : Pt) (a b : ℚ) (ha : 0 ≤ a) (hb : b ≤ 1) :
    interiorVerts [P, Q] a b = [] := by
  have hlen : ((([P, Q] : Polyline).length - 1 : ℕ) : ℚ) = 1 := by norm_num
  unfold interiorVerts
  rw [show List.range ([P, Q] : Polyline).length = [0, 1] from rfl]
  rw [List.filterMap_cons, List.filterMap_cons, List.filterMap_nil, hlen]
  have hc0 : ¬(a * 1 < ((0 : ℕ) : ℚ) ∧ ((0 : ℕ) : ℚ) < b * 1) := by
    rintro ⟨h, -⟩
    rw [mul_one] at h
    norm_num at h
    linarith
  have hc1 : ¬(a * 1 < ((1 : ℕ) : ℚ) ∧ ((1 : ℕ) : ℚ) < b * 1) := by
    rintro ⟨-, h⟩
    rw [mul_one] at h
    norm_num at h
    linarith
  rw [if_neg hc0, if_neg hc1]

theorem dedupConsec_pair (x y : Pt) (h : x ≠ y) : dedupConsec [x, y] = [x, y] := by
  unfold dedupConsec
  rw [if_neg h]
  rfl

theorem subLine_pair (P Q : Pt) (a b : ℚ) (h0 : 0 ≤ a) (ha1 : a ≤ 1) (hb1 : b ≤ 1)
    (hne : lerp P Q a ≠ lerp P Q b) :
    subLine [P, Q] a b = [lerp P Q a, lerp P Q b] := by
  unfold subLine
  rw [interiorVerts_pair P Q a b h0 hb1, pointAt_pair P Q a ha1, pointAt_pair P Q b hb1]
  exact dedupConsec_pair _ _ hne

theorem chain2_pair (A M B : Pt) :
    chain2 [A, M] [M, B] = some [A, M, B] := by
  show (if M = M then some (([A, M] : Polyline) ++ [B]) else none) = some [A, M, B]
  rw [if_pos rfl]
  rfl

theorem chainLines_pair (A M B : Pt) :
    chainLines [[A, M], [M, B]] = some [A, M, B] := by
  show List.foldlM chain2 [A, M] [[M, B]] = some [A, M, B]
  rw [List.foldlM_cons, chain2_pair]
  rfl

theorem lerp_comp_left (P Q : Pt) (s t : ℚ) (ht : t ≠ 0) :
    lerp P (lerp P Q t) (s / t) = lerp P Q s := by
  rw [lerp, lerp, lerp, Pt.mk.injEq]
  constructor <;> field_simp <;> ring

theorem lerp_comp_right (P Q : Pt) (e t : ℚ) (ht : 1 - t ≠ 0) :
    lerp (lerp P Q t) Q ((e - t) / (1 - t)) = lerp P Q e := by
  rw [lerp, lerp, lerp, Pt.mk.injEq]
  constructor <;> field_simp <;> ring

theorem lerp_between (P Q : Pt) (s e t : ℚ) (hse : e - s ≠ 0) :
    lerp (lerp P Q s) (lerp P Q e) ((t - s) / (e - s)) = lerp P Q t := by
  rw [lerp, lerp, lerp, lerp, Pt.mk.injEq]
  constructor <;> field_simp <;> ring

/-! ## Order and position lemmas for the split operation -/

theorem scaleAggToSub_order (t : ℚ) (id1 id2 : ℕ) (a : PathAggregation) :
    ∀ b ∈ scaleAggToSub t id1 id2 a, b.order = a.order := by
  intro b hb
  unfold scaleAggToSub at hb
  dsimp only at hb
  split_ifs at hb <;> simp only [List.mem_cons, List.mem_singleton] at hb <;>
    rcases hb with rfl | hb <;> first | rfl | (rcases hb with rfl | hb; rfl; cases hb) |
      cases hb

theorem splitAggs_piece_order (pid : ℕ) (t : ℚ) (id1 id2 : ℕ)
    (a b : PathAggregation)
    (hb : b ∈ (if a.path = pid then scaleAggToSub t id1 id2 a else [a])) :
    b.order = a.order := by
  by_cases hp : a.path = pid
  · rw [if_pos hp] at hb
    exact scaleAggToSub_order t id1 id2 a b hb
  · rw [if_neg hp] at hb
    rcases List.mem_singleton.mp hb with rfl
    rfl

theorem splitAggs_mem_order (pid : ℕ) (t : ℚ) (id1 id2 : ℕ)
    (aggs : List PathAggregation) (b : PathAggregation)
    (hb : b ∈ splitAggs pid t id1 id2 aggs) :
    ∃ a ∈ aggs, b.order = a.order := by
  obtain ⟨a, ha, hmem⟩ := List.mem_flatMap.mp hb
  exact ⟨a, ha, splitAggs_piece_order pid t id1 id2 a b hmem⟩

theorem splitAggs_sorted (pid : ℕ) (t : ℚ) (id1 id2 : ℕ)
    (aggs : List PathAggregation)
    (h : List.Sorted (· ≤ ·) (aggs.map PathAggregation.order)) :
    List.Sorted (· ≤ ·) ((splitAggs pid t id1 id2 aggs).map PathAggregation.order) := by
  induction aggs with
  | nil => exact List.sorted_nil
  | cons a rest ih =>
    rw [List.map_cons, List.sorted_cons] at h
    have hflat : splitAggs pid t id1 id2 (a :: rest) =
        (if a.path = pid then scaleAggToSub t id1 id2 a else [a]) ++
          splitAggs pid t id1 id2 rest := by
      unfold splitAggs
      rw [List.flatMap_cons]
    rw [hflat, List.map_append]
    rw [List.Sorted, List.pairwise_append]
    refine ⟨?_, ih h.2, ?_⟩
    · rw [List.pairwise_map]
      refine List.pairwise_iff_forall_sublist.mpr ?_
      intro x y hsub
      have hx := splitAggs_piece_order pid t id1 id2 a x
        (hsub.subset (List.mem_cons_self x [y]))
      have hy := splitAggs_piece_order pid t id1 id2 a y
        (hsub.subset (List.mem_cons_of_mem x (List.mem_cons_self y [])))
      rw [hx, hy]
    · intro x hx y hy
      obtain ⟨x', hx', rfl⟩ := List.mem_map.mp hx
      obtain ⟨y', hy', rfl⟩ := List.mem_map.mp hy
      obtain ⟨c, hc, hco⟩ := splitAggs_mem_order pid t id1 id2 rest y' hy'
      have hxo := splitAggs_piece_order pid t id1 id2 a x' hx'
      rw [hxo, hco]
      exact h.1 c.order (List.mem_map_of_mem PathAggregation.order hc)

theorem scaleAggToSub_positions (t : ℚ) (id1 id2 : ℕ) (a : PathAggregation)
    (ht0 : 0 < t) (ht1 : t < 1)
    (hs0 : 0 ≤ a.start_position) (hs1 : a.start_position ≤ 1)
    (he0 : 0 ≤ a.end_position) (he1 : a.end_position ≤ 1) :
    ∀ b ∈ scaleAggToSub t id1 id2 a,
      0 ≤ b.start_position ∧ b.start_position ≤ 1 ∧
      0 ≤ b.end_position ∧ b.end_position ≤ 1 := by
  intro b hb
  have h1t : (0 : ℚ) < 1 - t := by linarith
  unfold scaleAggToSub at hb
  dsimp only at hb
  split_ifs at hb with h1 h2 h3
  · rcases List.mem_singleton.mp hb with rfl
    refine ⟨div_nonneg hs0 ht0.le, (div_le_one ht0).mpr h1.1,
      div_nonneg he0 ht0.le, (div_le_one ht0).mpr h1.2⟩
  · rcases List.mem_singleton.mp hb with rfl
    refine ⟨div_nonneg (by linarith [h2.1]) h1t.le,
      (div_le_one h1t).mpr (by linarith),
      div_nonneg (by linarith [h2.2]) h1t.le,
      (div_le_one h1t).mpr (by linarith)⟩
  · have hst : a.start_position < t := by
      by_contra hc
      push_neg at hc
      exact h2 ⟨hc, by linarith⟩
    have hte : t < a.end_position := by
      by_contra hc
      push_neg at hc
      exact h1 ⟨by linarith, hc⟩
    simp only [List.mem_cons, List.mem_singleton] at hb
    rcases hb with rfl | rfl | hfalse
    · exact ⟨div_nonneg hs0 ht0.le, (div_le_one ht0).mpr hst.le, zero_le_one, le_refl 1⟩
    · exact ⟨le_refl 0, zero_le_one, div_nonneg (by linarith) h1t.le,
        (div_le_one h1t).mpr (by linarith)⟩
    · cases hfalse
  · have hse : a.end_position ≤ a.start_position := by
      by_contra hc
      push_neg at hc
      exact h3 hc
    have het : a.end_position < t := by
      by_contra hc
      push_neg at hc
      exact h2 ⟨by linarith, hc⟩
    have hts : t < a.start_position := by
      by_contra hc
      push_neg at hc
      exact h1 ⟨hc, by linarith⟩
    simp only [List.mem_cons, List.mem_singleton] at hb
    rcases hb with rfl | rfl | hfalse
    · exact ⟨div_nonneg (by linarith) h1t.le,
        (div_le_one h1t).mpr (by linarith), le_refl 0, zero_le_one⟩
    · exact ⟨zero_le_one, le_refl 1, div_nonneg he0 ht0.le, (div_le_one ht0).mpr het.le⟩
    · cases hfalse

theorem splitPath_geom_recomputed (db : DB) (pid : ℕ) (t : ℚ) (id1 id2 : ℕ)
    (hwf : db.wf) :
    ∀ u ∈ (splitPath db pid t id1 id2).topos,
      u.geom = topoGeomComputed (splitPath db pid t id1 id2) u := by
  intro u hu
  cases hf : db.findPath pid with
  | none =>
    have heq : splitPath db pid t id1 id2 = db := by
      unfold splitPath
      rw [hf]
    rw [heq] at hu ⊢
    exact (hwf.2 u hu).1
  | some p =>
    have heq : splitPath db pid t id1 id2 =
        { splitMid db pid t id1 id2 p with
            topos := (splitMid db pid t id1 id2 p).topos.map fun v =>
              { v with geom := topoGeomComputed (splitMid db pid t id1 id2 p) v } } := by
      unfold splitPath
      rw [hf]
    rw [heq] at hu ⊢
    obtain ⟨u0, hu0, rfl⟩ := List.mem_map.mp hu
    have hlhs : ({ u0 with geom := topoGeomComputed (splitMid db pid t id1 id2 p) u0 } : Topology).geom
        = topoGeomComputed (splitMid db pid t id1 id2 p) u0 := rfl
    rw [hlhs]
    unfold topoGeomComputed
    rw [topoPieces_paths_congr (splitMid db pid t id1 id2 p) _ rfl]
    rfl

/-! ## C3: re-expression of aggregations at split time -/

/-- C3 counterexample: splitting path 1 of `exampleSplitDB` (the
`test_split_reorder_1` configuration) re-expresses the aggregations against
the sub-paths, but with order values `[0, 0, 1]` — the two pieces of the
split aggregation share order `0`, so the orders are NOT strictly
increasing, contrary to the claim. -/
theorem split_orders_not_strictly_increasing :
    ∃ u ∈ exampleSplitDBAfter.topos,
      ordersOf u = [0, 0, 1] ∧ ¬ List.Sorted (· < ·) (ordersOf u) := by
  decide

/-- C3 (amended): Whenever a path referenced by a topology is split, every
`PathAggregation` referencing that path is immediately re-expressed against
the two resulting sub-paths: the non-decreasing ordering of the order values
is preserved, the re-expressed fractional positions stay in `[0,1]`, an
aggregation spanning the split point becomes two aggregations that keep the
SAME order value (so the orders are duplicated, not strictly increasing —
strict increase is only restored by `reorder_topologies`), the substrings of
the two pieces chain through the split point, which lies on the original
substring, so the concatenation invariant is preserved, and each topology's
stored geometry is recomputed from the new aggregations. -/
theorem split_reexpression (db : DB) (pid : ℕ) (t : ℚ) (id1 id2 o : ℕ)
    (P Q : Pt) (s e : ℚ)
    (hwf : db.wf) (hPQ : P ≠ Q) (ht0 : 0 < t) (ht1 : t < 1)
    (hs0 : 0 ≤ s) (hst : s < t) (hte : t < e) (he1 : e ≤ 1) :
    (∀ aggs : List PathAggregation,
      List.Sorted (· ≤ ·) (aggs.map PathAggregation.order) →
      List.Sorted (· ≤ ·) ((splitAggs pid t id1 id2 aggs).map PathAggregation.order)) ∧
    (∀ a : PathAggregation,
      0 ≤ a.start_position → a.start_position ≤ 1 →
      0 ≤ a.end_position → a.end_position ≤ 1 →
      ∀ b ∈ scaleAggToSub t id1 id2 a,
        0 ≤ b.start_position ∧ b.start_position ≤ 1 ∧
        0 ≤ b.end_position ∧ b.end_position ≤ 1) ∧
    scaleAggToSub t id1 id2 ⟨pid, s, e, o⟩ =
      [⟨id1, s / t, 1, o⟩, ⟨id2, 0, (e - t) / (1 - t), o⟩] ∧
    chainLines [subLine (subLine [P, Q] 0 t) (s / t) 1,
                subLine (subLine [P, Q] t 1) 0 ((e - t) / (1 - t))] =
      some [lerp P Q s, lerp P Q t, lerp P Q e] ∧
    subLine [P, Q] s e = [lerp P Q s, lerp P Q e] ∧
    lerp (lerp P Q s) (lerp P Q e) ((t - s) / (e - s)) = lerp P Q t ∧
    (∀ u ∈ (splitPath db pid t id1 id2).topos,
      u.geom = topoGeomComputed (splitPath db pid t id1 id2) u) := by
  have h1t : (0 : ℚ) < 1 - t := by linarith
  have hse : s < e := lt_trans hst hte
  refine ⟨splitAggs_sorted pid t id1 id2, ?_, ?_, ?_, ?_, ?_, ?_⟩
  · intro a ha1 ha2 ha3 ha4
    exact scaleAggToSub_positions t id1 id2 a ht0 ht1 ha1 ha2 ha3 ha4
  · unfold scaleAggToSub
    dsimp only
    rw [if_neg (fun hc => absurd hc.2 (not_le.mpr hte)),
      if_neg (fun hc => absurd hc.1 (not_le.mpr hst)),
      if_pos hse]
  · have hPM : P ≠ lerp P Q t := by
      nth_rewrite 1 [← lerp_zero P Q]
      exact lerp_ne P Q hPQ (ne_of_lt ht0)
    have hMQ : lerp P Q t ≠ Q := by
      nth_rewrite 2 [← lerp_one P Q]
      exact lerp_ne P Q hPQ (ne_of_lt ht1)
    have hg1 : subLine [P, Q] 0 t = [P, lerp P Q t] := by
      rw [subLine_pair P Q 0 t le_rfl zero_le_one ht1.le
        (lerp_ne P Q hPQ (ne_of_lt ht0)), lerp_zero]
    have hg2 : subLine [P, Q] t 1 = [lerp P Q t, Q] := by
      rw [subLine_pair P Q t 1 ht0.le ht1.le le_rfl
        (lerp_ne P Q hPQ (ne_of_lt ht1)), lerp_one]
    have hst1 : s / t ≤ 1 := (div_le_one ht0).mpr hst.le
    have hr : (e - t) / (1 - t) ≤ 1 := (div_le_one h1t).mpr (by linarith)
    have hp1 : subLine [P, lerp P Q t] (s / t) 1 = [lerp P Q s, lerp P Q t] := by
      rw [subLine_pair P (lerp P Q t) (s / t) 1 (div_nonneg hs0 ht0.le) hst1 le_rfl
        (lerp_ne P (lerp P Q t) hPM (ne_of_lt ((div_lt_one ht0).mpr hst))),
        lerp_comp_left P Q s t (ne_of_gt ht0), lerp_one]
    have hp2 : subLine [lerp P Q t, Q] 0 ((e - t) / (1 - t)) =
        [lerp P Q t, lerp P Q e] := by
      rw [subLine_pair (lerp P Q t) Q 0 ((e - t) / (1 - t)) le_rfl zero_le_one hr
        (lerp_ne (lerp P Q t) Q hMQ
          (ne_of_lt (div_pos (by linarith) h1t))),
        lerp_zero, lerp_comp_right P Q e t (ne_of_gt h1t)]
    rw [hg1, hg2, hp1, hp2]
    exact chainLines_pair (lerp P Q s) (lerp P Q t) (lerp P Q e)
  · exact subLine_pair P Q s e hs0 (by linarith) he1 (lerp_ne P Q hPQ (ne_of_lt hse))
  · exact lerp_between P Q s e t (ne_of_gt (by linarith))
  · exact splitPath_geom_recomputed db pid t id1 id2 hwf

/-- Closed instance of `split_reexpression` at the `test_split_reorder_1`
configuration: the full-path aggregation splits into the two sub-path
aggregations sharing order 0, and their substrings chain through the split
point `(45, 45)`. -/
theorem split_reexpression_witness :
    scaleAggToSub (9/10) 3 4 ⟨1, 0, 1, 0⟩ = [⟨3, 0, 1, 0⟩, ⟨4, 0, 1, 0⟩] ∧
    chainLines [subLine (subLine [⟨0, 0⟩, ⟨50, 50⟩] 0 (9/10)) (0 / (9/10)) 1,
                subLine (subLine [⟨0, 0⟩, ⟨50, 50⟩] (9/10) 1) 0 ((1 - 9/10) / (1 - 9/10))] =
      some [⟨0, 0⟩, ⟨45, 45⟩, ⟨50, 50⟩] := by
  have h := split_reexpression exampleSplitDB 1 (9/10) 3 4 0 ⟨0, 0⟩ ⟨50, 50⟩ 0 1
    (by decide) (by decide) (by norm_num) (by norm_num) le_rfl (by norm_num)
    (by norm_num) le_rfl
  constructor
  · rw [h.2.2.1]
    decide
  · rw [h.2.2.2.1]
    decide

end Geotrek
